import Mathlib

set_option maxRecDepth 20000

/-!
Verification of the natural-language interpretation pipeline of
`src/nexus_local.py` (the NEXUS task interpreter).

The Python source is shallowly embedded below.  Conventions of the embedding:

* Python strings are Lean `String`s (a `String` here is a structure holding
  `data : List Char`).  `str.lower`/`str.upper` are modelled with
  `Char.toLower`/`Char.toUpper`, which act on ASCII letters; the keyword
  tables of the source are lower-case already, so the pipeline's branching
  is unaffected.
* `datetime` values are modelled by `Fecha` (year/month/day): every
  observable branch of the source compares dates with `.date()` or reads
  `.year/.month/.day/.weekday()`, so the time of day is never observable.
  `datetime(y, m, d)` construction errors (day 0, year outside 1..9999) are
  modelled by `Option`; `calendar.monthrange`/`_days_before_*` follow
  CPython's table-based implementation.
* `difflib.SequenceMatcher.ratio` is the external standard library; it is
  modelled by its documented contract: the recursive longest-matching-block
  decomposition, where `find_longest_match` returns the maximal matching
  block that starts earliest in `a`, ties broken by earliest start in `b`
  (for the short strings used here `autojunk` never fires).  Ratios and the
  float comparisons of the source are modelled exactly as rational-number
  comparisons: a ratio is carried as a numerator/denominator pair of
  naturals and compared by cross multiplication (`Rat` arithmetic does not
  reduce in the kernel, the pairs do).
* `dateparser.parse` (third-party) is an oracle parameter
  `dparse : String → Option Fecha`; `input()` is modelled by a list of
  pre-parsed replies (`Resp`), and the unbounded confirmation loop returns
  `none` when the replies run out.
-/

/-! ## Text normalisation (`normalizar_texto`, `tokenizar`, `remover_stopwords`) -/

/-- The whitespace class of Python's `\s` and `str.split`/`str.strip`, for the
ASCII range the pipeline uses. -/
def esEspacioPy (c : Char) : Bool :=
  c == ' ' || c == '\t' || c == '\n' || c == '\r' || c == Char.ofNat 11 || c == Char.ofNat 12

/-- `string.punctuation` of CPython: the 32 ASCII punctuation characters
removed by `normalizar_texto`'s `translate`. -/
def puntuacionPy : List Char :=
  ['!', Char.ofNat 34, '#', '$', '%', '&', Char.ofNat 39, '(', ')', '*', '+', ',', '-',
   '.', '/', ':', ';', '<', '=', '>', '?', '@', '[', Char.ofNat 92, ']', '^', '_',
   Char.ofNat 96, Char.ofNat 123, '|', Char.ofNat 125, '~']

/-- One pass of `re.sub(r'\s+', ' ', texto)`: every maximal whitespace run
becomes a single space.  The flag records whether the previous character was
part of a run already. -/
def colapsarEspacios : List Char → Bool → List Char
  | [], _ => []
  | c :: resto, enEspacio =>
    if esEspacioPy c then
      if enEspacio then colapsarEspacios resto true
      else ' ' :: colapsarEspacios resto true
    else c :: colapsarEspacios resto false

/-- Python `str.strip()` (whitespace at both ends). -/
def recortar (cs : List Char) : List Char :=
  ((cs.dropWhile esEspacioPy).reverse.dropWhile esEspacioPy).reverse

/-- Python `str.lower()` (ASCII model). -/
def minusculasPy (s : String) : String :=
  String.mk (s.data.map Char.toLower)

/-- `normalizar_texto`: drop punctuation, collapse whitespace runs, strip,
lower-case — in the source's order. -/
def normalizarTexto (s : String) : String :=
  let sinPuntuacion := s.data.filter (fun c => !(puntuacionPy.contains c))
  let colapsado := colapsarEspacios sinPuntuacion false
  String.mk ((recortar colapsado).map Char.toLower)

/-- Python `str.split()` with no separator: split on whitespace runs, no
empty words.  The accumulator holds the current word reversed. -/
def partirEnPalabras : List Char → List Char → List String
  | [], acc => if acc.isEmpty then [] else [String.mk acc.reverse]
  | c :: resto, acc =>
    if esEspacioPy c then
      if acc.isEmpty then partirEnPalabras resto []
      else String.mk acc.reverse :: partirEnPalabras resto []
    else partirEnPalabras resto (c :: acc)

/-- `tokenizar`: normalise then split into words. -/
def tokenizar (texto : String) : List String :=
  partirEnPalabras (normalizarTexto texto).data []

/-- `STOPWORDS_ES` of the source (a Python set; only membership is used). -/
def STOPWORDS_ES : List String :=
  ["el", "la", "de", "que", "y", "a", "en", "un", "ser", "se",
   "no", "haber", "por", "con", "su", "para", "es", "o", "como",
   "estar", "tener", "le", "lo", "todo", "pero", "más", "hacer",
   "poder", "decir", "este", "ir", "otro", "ese", "esta", "son",
   "los", "las", "del", "al", "desde", "hasta", "me", "te", "nos"]

/-- `remover_stopwords`. -/
def removerStopwords (tokens : List String) : List String :=
  tokens.filter (fun t => !(STOPWORDS_ES.contains t))

/-! ## Negation detection (`tiene_negacion`) -/

/-- The negation word list of `tiene_negacion`. -/
def negaciones : List String :=
  ["no", "nunca", "jamás", "nada", "ni"]

/-- Python `list.index`: position of the first occurrence. -/
def indicePrimero : List String → String → ℕ
  | [], _ => 0
  | t :: resto, x => if t = x then 0 else indicePrimero resto x + 1

/-- `tiene_negacion(tokens, palabra, ventana)`: scan
`range(max(0, idx - ventana), min(len(tokens), idx + ventana))` around the
first occurrence of `palabra`. -/
def tieneNegacion (tokens : List String) (palabra : String) (ventana : ℕ) : Bool :=
  if palabra ∈ tokens then
    let idx := indicePrimero tokens palabra
    let ini := idx - ventana
    let tope := min tokens.length (idx + ventana)
    (List.range' ini (tope - ini)).any (fun i => negaciones.contains (tokens.getD i ""))
  else false

/-! ## Fuzzy matching (`buscar_concepto_fuzzy` over `difflib.SequenceMatcher`) -/

/-- Length of the common prefix of two character lists. -/
def prefijoComunLargo : List Char → List Char → ℕ
  | a :: ra, b :: rb => if a = b then prefijoComunLargo ra rb + 1 else 0
  | _, _ => 0

/-- `find_longest_match` over whole sequences: the `(i, j, k)` of a maximal
matching block `a[i:i+k] = b[j:j+k]`, earliest `i` first, then earliest `j`
(the documented contract of `difflib`, no junk). -/
def mejorBloque (a b : List Char) : ℕ × ℕ × ℕ :=
  (List.range a.length).foldl (fun mejor i =>
    (List.range b.length).foldl (fun mejor2 j =>
      let k := prefijoComunLargo (a.drop i) (b.drop j)
      if mejor2.2.2 < k then (i, j, k) else mejor2) mejor) (0, 0, 0)

/-- The total size of `get_matching_blocks`: recursively take the longest
block and recurse on what is left of both sides.  Each recursive call
strictly shrinks `a.length + b.length`, so that much fuel never runs out;
fuel keeps the recursion structural. -/
def coincidenciasConFuel : ℕ → List Char → List Char → ℕ
  | 0, _, _ => 0
  | fuel + 1, a, b =>
    let t := mejorBloque a b
    if t.2.2 = 0 then 0
    else
      coincidenciasConFuel fuel (a.take t.1) (b.take t.2.1) + t.2.2 +
        coincidenciasConFuel fuel (a.drop (t.1 + t.2.2)) (b.drop (t.2.1 + t.2.2))

/-- Sum of the matching-block sizes of two sequences. -/
def coincidenciasTotales (a b : List Char) : ℕ :=
  coincidenciasConFuel (a.length + b.length) a b

/-- `SequenceMatcher.ratio()` as an exact fraction `(numerator, denominator)`
with positive denominator: `2*M / (len a + len b)`, and `1` when both are
empty (CPython's `_calculate_ratio`). -/
def parSimilitud (a b : List Char) : ℕ × ℕ :=
  if a.length + b.length = 0 then (1, 1)
  else (2 * coincidenciasTotales a b, a.length + b.length)

/-- Exact comparison `p ≤ q` of two nonnegative fractions, by cross
multiplication (the model of the source's float comparison). -/
def parLe (p q : ℕ × ℕ) : Bool :=
  decide (p.1 * q.2 ≤ q.1 * p.2)

/-- Exact comparison `p < q` of two nonnegative fractions. -/
def parLt (p q : ℕ × ℕ) : Bool :=
  decide (p.1 * q.2 < q.1 * p.2)

/-- The fraction a pair stands for. -/
def valorPar (p : ℕ × ℕ) : ℚ :=
  (p.1 : ℚ) / (p.2 : ℚ)

/-- The similarity ratio as a rational number, for statements:
`SequenceMatcher(None, normalizar(entrada), normalizar(opcion)).ratio()`. -/
def similitud (entrada opcion : String) : ℚ :=
  valorPar (parSimilitud (normalizarTexto entrada).data (normalizarTexto opcion).data)

/-- Python's `max(mejores, key=lambda x: x[1])`: left fold keeping the first
element whose key no later element strictly exceeds. -/
def plegarMejor : (String × (ℕ × ℕ)) → List (String × (ℕ × ℕ)) → String × (ℕ × ℕ)
  | mejor, [] => mejor
  | mejor, p :: resto => plegarMejor (if parLt mejor.2 p.2 then p else mejor) resto

/-- The `mejores` accumulator of `buscar_concepto_fuzzy`: each candidate at
or above the threshold, paired with its ratio, in candidate order. -/
def mejoresDe (entrada : String) (opciones : List String) (umbral : ℕ × ℕ) :
    List (String × (ℕ × ℕ)) :=
  opciones.filterMap (fun opcion =>
    let sim := parSimilitud (normalizarTexto entrada).data (normalizarTexto opcion).data
    if parLe umbral sim then some (opcion, sim) else none)

/-- `buscar_concepto_fuzzy(entrada, opciones, umbral)`.  The threshold is the
fraction `umbral.1 / umbral.2` (the call sites use `0.75 = (3, 4)`). -/
def buscarConceptoFuzzy (entrada : String) (opciones : List String) (umbral : ℕ × ℕ) :
    Option String :=
  match mejoresDe entrada opciones umbral with
  | [] => none
  | p :: resto => some (plegarMejor p resto).1

/-! ## Subject, type and priority
(`DICCIONARIO_MATERIAS_MEJORADO`, sections 1–3 of `procesar_logica_negocio`) -/

/-- Python `str.capitalize()`: first character upper-cased, every following
character lower-cased (ASCII model). -/
def capitalizarPy (s : String) : String :=
  match s.data with
  | [] => s
  | c :: resto => String.mk (c.toUpper :: resto.map Char.toLower)

/-- `DICCIONARIO_MATERIAS_MEJORADO`, in the source's (insertion) order:
key, canonical name, variant list. -/
def diccionarioMaterias : List (String × String × List String) :=
  [("web", "Aplicaciones Web y Móviles",
    ["web", "móvil", "mobile", "app", "webapp", "aplicación", "frontend", "backend",
     "react", "angular"]),
   ("bi", "Inteligencia de negocios",
    ["bi", "negocios", "inteligencia", "analytics", "datos", "data", "tableau",
     "powerbi", "business"]),
   ("realidad", "Realidad Nacional",
    ["realidad", "nacional", "sociedad", "contexto"]),
   ("distribuidas", "Aplicaciones distribuidas",
    ["distribuidas", "distribuido", "microservicios", "cloud", "kubernetes", "docker"]),
   ("gestión", "Gestión de prueba e implantación",
    ["gestión", "gestion", "prueba", "qa", "testing", "implantación", "deployment"]),
   ("inglés", "Inglés B1+",
    ["inglés", "ingles", "english", "b1"])]

/-- All variants flattened in dictionary order (`todas_variantes`). -/
def todasVariantes : List String :=
  diccionarioMaterias.foldr (fun entrada acc => entrada.2.2 ++ acc) []

/-- Exact phase of section 1: the first dictionary entry with a variant among
the clean tokens. -/
def materiaExacta (tokensClean : List String) : String :=
  match diccionarioMaterias.find? (fun entrada =>
      entrada.2.2.any (fun v => tokensClean.contains v)) with
  | some entrada => entrada.2.1
  | none => ""

/-- Fuzzy phase of section 1: first token with a fuzzy hit in the variant
pool, mapped back to its owning subject. -/
def materiaFuzzy : List String → String
  | [] => ""
  | token :: resto =>
    match buscarConceptoFuzzy token todasVariantes (3, 4) with
    | some enc =>
      match diccionarioMaterias.find? (fun entrada => entrada.2.2.contains enc) with
      | some entrada => entrada.2.1
      | none => materiaFuzzy resto
    | none => materiaFuzzy resto

/-- `materia_final` of `procesar_logica_negocio`. -/
def materiaFinal (tokensClean : List String) : String :=
  let exacta := materiaExacta tokensClean
  if exacta = "" then materiaFuzzy tokensClean else exacta

/-- `tipos_disponibles`. -/
def tiposDisponibles : List String :=
  ["examen", "proyecto", "deber", "entrega", "taller"]

/-- `tipos_palabras_clave`, in the source's order. -/
def tiposPalabrasClave : List (String × List String) :=
  [("examen", ["examen", "prueba", "test", "parcial", "final", "evaluación", "quiz", "exam"]),
   ("proyecto", ["proyecto", "trabajo", "investigación", "paper", "trabajo final"]),
   ("entrega", ["entrega", "foro", "submission", "entregar"]),
   ("taller", ["taller", "workshop", "práctica"])]

/-- Keyword phase of section 2, default `"Deber"`. -/
def tipoPorClave (tokensClean : List String) : String :=
  match tiposPalabrasClave.find? (fun entrada =>
      entrada.2.any (fun p => tokensClean.contains p)) with
  | some entrada => capitalizarPy entrada.1
  | none => "Deber"

/-- Fuzzy phase of section 2: first token with a fuzzy hit among the type
names. -/
def tipoFuzzy : List String → String
  | [] => "Deber"
  | token :: resto =>
    match buscarConceptoFuzzy token tiposDisponibles (3, 4) with
    | some enc => capitalizarPy enc
    | none => tipoFuzzy resto

/-- `tipo` of `procesar_logica_negocio` (fuzzy phase only when the keyword
phase left the default). -/
def tipoFinal (tokensClean : List String) : String :=
  let t := tipoPorClave tokensClean
  if t = "Deber" then tipoFuzzy tokensClean else t

/-- `palabras_urgentes`. -/
def palabrasUrgentes : List String :=
  ["urgente", "importante", "prioridad", "crítico", "critico", "urge", "asap"]

/-- `palabras_bajas`. -/
def palabrasBajas : List String :=
  ["suave", "bajo", "fácil", "facil", "simple", "fácilmente", "facilmente"]

/-- Section 3 of `procesar_logica_negocio`: priority with negation-aware
urgency, then mildness only if still at the default. -/
def prioridadDe (tokens tokensClean : List String) : String :=
  let alta :=
    if palabrasUrgentes.any (fun p => tokensClean.contains p) then
      if tieneNegacion tokens "urgente" 3 = false ∧ tieneNegacion tokens "importante" 3 = false
      then "Alta" else "Media"
    else "Media"
  if alta = "Media" ∧ palabrasBajas.any (fun p => tokensClean.contains p) then "Baja" else alta

/-! ## Calendar arithmetic (`calendar.monthrange`, `datetime`, `timedelta`) -/

/-- A calendar date, the observable part of a Python `datetime`. -/
structure Fecha where
  year : ℕ
  month : ℕ
  day : ℕ
deriving DecidableEq

/-- `calendar.isleap`. -/
def esBisiesto (y : ℕ) : Prop :=
  y % 4 = 0 ∧ (y % 100 ≠ 0 ∨ y % 400 = 0)

instance (y : ℕ) : Decidable (esBisiesto y) := by
  unfold esBisiesto
  exact inferInstance

/-- `calendar.monthrange(y, m)[1]`: days in a month (0 outside 1..12, where
the library raises and every call site guards). -/
def diasEnMes (y m : ℕ) : ℕ :=
  if m = 2 then (if esBisiesto y then 29 else 28)
  else if m = 4 ∨ m = 6 ∨ m = 9 ∨ m = 11 then 30
  else if 1 ≤ m ∧ m ≤ 12 then 31
  else 0

/-- CPython's `_DAYS_BEFORE_MONTH` table plus the leap correction. -/
def diasAntesDeMes (y m : ℕ) : ℕ :=
  (match m with
   | 1 => 0 | 2 => 31 | 3 => 59 | 4 => 90 | 5 => 120 | 6 => 151
   | 7 => 181 | 8 => 212 | 9 => 243 | 10 => 273 | 11 => 304 | 12 => 334
   | _ => 0) +
  (if 2 < m ∧ esBisiesto y then 1 else 0)

/-- CPython's `_days_before_year`. -/
def diasAntesDeAno (y : ℕ) : ℕ :=
  (y - 1) * 365 + (y - 1) / 4 - (y - 1) / 100 + (y - 1) / 400

/-- CPython's `_ymd2ord`: the proleptic Gregorian ordinal (0001-01-01 is 1). -/
def aOrdinal (d : Fecha) : ℕ :=
  diasAntesDeAno d.year + diasAntesDeMes d.year d.month + d.day

/-- `datetime.weekday()`: Monday = 0 … Sunday = 6. -/
def numeroDiaSemana (d : Fecha) : ℕ :=
  (aOrdinal d + 6) % 7

/-- A representable date: what `datetime(year, month, day)` accepts, without
the year ≤ 9999 cap (tracked separately where it matters). -/
def validFecha (d : Fecha) : Prop :=
  1 ≤ d.year ∧ 1 ≤ d.month ∧ d.month ≤ 12 ∧ 1 ≤ d.day ∧ d.day ≤ diasEnMes d.year d.month

instance (d : Fecha) : Decidable (validFecha d) := by
  unfold validFecha
  exact inferInstance

/-- The calendar successor of a date. -/
def diaSiguiente (d : Fecha) : Fecha :=
  if d.day < diasEnMes d.year d.month then ⟨d.year, d.month, d.day + 1⟩
  else if d.month < 12 then ⟨d.year, d.month + 1, 1⟩
  else ⟨d.year + 1, 1, 1⟩

/-- `d + timedelta(days = k)`. -/
def sumarDias (d : Fecha) : ℕ → Fecha
  | 0 => d
  | k + 1 => diaSiguiente (sumarDias d k)

/-- Python `date` comparison `a < b` (lexicographic on year, month, day). -/
def fechaMenor (a b : Fecha) : Bool :=
  decide (a.year < b.year ∨ (a.year = b.year ∧
    (a.month < b.month ∨ (a.month = b.month ∧ a.day < b.day))))

/-- `_clamp_day`. -/
def ajustarDia (y m day : ℕ) : ℕ :=
  min day (diasEnMes y m)

/-- `_safe_date`: clamp the day to the month, then build the `datetime`;
`none` models the exception when the result is unrepresentable (day 0 after
clamping, month outside 1..12, year outside 1..9999). -/
def safeDate (y m day : ℕ) : Option Fecha :=
  if 1 ≤ m ∧ m ≤ 12 then
    let d := ajustarDia y m day
    if 1 ≤ y ∧ y ≤ 9999 ∧ 1 ≤ d then some ⟨y, m, d⟩ else none
  else none

/-- Zero-padded decimal digits, for `strftime`. -/
def rellenar (n ancho : ℕ) : String :=
  let ds := Nat.toDigits 10 n
  String.mk (List.replicate (ancho - ds.length) '0' ++ ds)

/-- `fecha_dt.strftime("%Y-%m-%d")` (years 1000..9999 in every use). -/
def formatearFecha (d : Fecha) : String :=
  rellenar d.year 4 ++ "-" ++ rellenar d.month 2 ++ "-" ++ rellenar d.day 2

/-! ## Date strategies
(`_obtener_proximo_dia_semana`, `extraer_fechas_mejorado` pattern 1,
`_pedir_confirmacion_fecha`, section 4 of `procesar_logica_negocio`) -/

/-- The weekday table of `_obtener_proximo_dia_semana`. -/
def diasSemanaDicc : List (String × ℕ) :=
  [("lunes", 0), ("martes", 1), ("miercoles", 2), ("miércoles", 2),
   ("jueves", 3), ("viernes", 4), ("sabado", 5), ("sábado", 5), ("domingo", 6)]

/-- Ordered-list lookup (a Python dict read). -/
def buscarClave (clave : String) : List (String × ℕ) → Option ℕ
  | [] => none
  | p :: resto => if p.1 = clave then some p.2 else buscarClave clave resto

/-- `_obtener_proximo_dia_semana(nombre_dia, ahora, proxima_semana)`.
`(7 + objetivo - actual) % 7` equals Python's `(objetivo - actual) % 7`
because both weekday numbers lie in 0..6. -/
def obtenerProximoDiaSemana (nombreDia : String) (ahora : Fecha) (proximaSemana : Bool) :
    Option Fecha :=
  match buscarClave nombreDia diasSemanaDicc with
  | none => none
  | some objetivo =>
    let actual := numeroDiaSemana ahora
    let adelante := (7 + objetivo - actual) % 7
    let adelante2 := if proximaSemana then (if adelante = 0 then 7 else adelante + 7)
                     else adelante
    some (sumarDias ahora adelante2)

/-- The "this month" candidate of `_pedir_confirmacion_fecha`
(`_safe_date(ahora.year, ahora.month, dia)`, `None` on exception). -/
def candidatoEsteMes (ahora : Fecha) (dia : ℕ) : Option Fecha :=
  safeDate ahora.year ahora.month dia

/-- The "next month" candidate of `_pedir_confirmacion_fecha`: month + 1 with
the 13 → January/next-year rollover, then `_safe_date`. -/
def candidatoProximoMes (ahora : Fecha) (dia : ℕ) : Option Fecha :=
  if ahora.month + 1 = 13 then safeDate (ahora.year + 1) 1 dia
  else safeDate ahora.year (ahora.month + 1) dia

/-- One reply on the interactive channel of `_pedir_confirmacion_fecha`,
already classified the way the source classifies the raw string: the word
for "this month", the word for "next month", a date obtained from
`strptime("%Y-%m-%d")` or from the `dateparser` fallback, or an
unparseable reply (re-prompt). -/
inductive Resp where
  | este : Resp
  | proximoMes : Resp
  | fechaResp : Fecha → Resp
  | invalida : Resp

/-- The `while True` prompt loop: "este" is accepted only when that candidate
exists and is not before today, "próximo" and explicit dates are returned as
given, anything else re-prompts.  `none` models a channel that never gives a
usable reply (the loop never returns). -/
def bucleConfirmacion (fechaEste : Option Fecha) (fechaProximo ahora : Fecha) :
    List Resp → Option Fecha
  | [] => none
  | Resp.este :: resto =>
    match fechaEste with
    | some fe => if fechaMenor fe ahora then bucleConfirmacion fechaEste fechaProximo ahora resto
                 else some fe
    | none => bucleConfirmacion fechaEste fechaProximo ahora resto
  | Resp.proximoMes :: _ => some fechaProximo
  | Resp.fechaResp f :: _ => some f
  | Resp.invalida :: resto => bucleConfirmacion fechaEste fechaProximo ahora resto

/-- `_pedir_confirmacion_fecha(texto_original, fecha_actual, ahora)` over a
reply list.  `none` on the outside `match` models the uncaught exception
when the next-month candidate is unrepresentable. -/
def pedirConfirmacionFecha (_textoOriginal : String) (fechaActual ahora : Fecha)
    (respuestas : List Resp) : Option Fecha :=
  match candidatoProximoMes ahora fechaActual.day with
  | none => none
  | some fp => bucleConfirmacion (candidatoEsteMes ahora fechaActual.day) fp ahora respuestas

/-! ## The explicit day+month pattern
(`extraer_fechas_mejorado`'s first regex, the only one whose groups
`procesar_logica_negocio` consumes: for the other three kinds the groups are
discarded and the interpreter re-checks the text itself). -/

/-- Python `\w` for the character ranges the pipeline meets: ASCII
alphanumerics, underscore, and the Latin letters with diacritics
(U+00C0..U+017F without the two operator signs). -/
def esCaracterPalabra (c : Char) : Bool :=
  c.isAlphanum || c == '_' ||
    (0xC0 ≤ c.toNat && c.toNat ≤ 0x17F && c.toNat ≠ 0xD7 && c.toNat ≠ 0xF7)

/-- Value of a most-significant-first digit list. -/
def valorNumero (ds : List Char) : ℕ :=
  ds.foldl (fun acc c => acc * 10 + (c.toNat - '0'.toNat)) 0

/-- The tail `\s*de\s+(\w+)` of the pattern, after the day digits.  Each
greedy piece here is forced (a shorter `\s` run would leave a whitespace
character where `d` or a word character is required), so no backtracking is
needed beyond the digit choice. -/
def colaPatron (resto : List Char) : Option (List Char) :=
  match resto.dropWhile esEspacioPy with
  | 'd' :: 'e' :: r2 =>
    match r2 with
    | c :: r3 =>
      if esEspacioPy c then
        let palabra := (r3.dropWhile esEspacioPy).takeWhile esCaracterPalabra
        if palabra.isEmpty then none else some palabra
      else none
    | [] => none
  | _ => none

/-- One anchored attempt of `(\d{1,2})\s*de\s+(\w+)`: two digits first, then
one (the regex engine's greedy order). -/
def patronEn : List Char → Option (ℕ × List Char)
  | [] => none
  | c :: resto =>
    if c.isDigit then
      match resto with
      | c2 :: r2 =>
        if c2.isDigit then
          match colaPatron r2 with
          | some palabra => some (valorNumero [c, c2], palabra)
          | none =>
            match colaPatron resto with
            | some palabra => some (valorNumero [c], palabra)
            | none => none
        else
          match colaPatron resto with
          | some palabra => some (valorNumero [c], palabra)
          | none => none
      | [] => none
    else none

/-- `re.search` of the pattern: the match at the leftmost feasible start. -/
def buscarExplicitaAux : List Char → Option (ℕ × List Char)
  | [] => none
  | c :: resto =>
    match patronEn (c :: resto) with
    | some r => some r
    | none => buscarExplicitaAux resto

/-- Day number and month word of the first `(\d{1,2})\s*de\s+(\w+)` match. -/
def buscarExplicita (cs : List Char) : Option (ℕ × String) :=
  (buscarExplicitaAux cs).map (fun p => (p.1, String.mk p.2))

/-- `meses_es`. -/
def mesesEs : List (String × ℕ) :=
  [("enero", 1), ("febrero", 2), ("marzo", 3), ("abril", 4), ("mayo", 5), ("junio", 6),
   ("julio", 7), ("agosto", 8), ("septiembre", 9), ("octubre", 10), ("noviembre", 11),
   ("diciembre", 12)]

/-- Pattern 1 of section 4: explicit day+month, year rolled to the next one
when the month/day already passed, `_safe_date` for the clamp (`None` models
the caught exception). -/
def resolverExplicita (textoMin : String) (ahora : Fecha) : Option Fecha :=
  match buscarExplicita textoMin.data with
  | none => none
  | some (diaNum, mesNombre) =>
    match buscarClave mesNombre mesesEs with
    | none => none
    | some mesNum =>
      let ano := if mesNum < ahora.month ∨ (mesNum = ahora.month ∧ diaNum < ahora.day)
                 then ahora.year + 1 else ahora.year
      safeDate ano mesNum diaNum

/-! ## The full date logic and the interpreter
(section 4 and the tail of `procesar_logica_negocio`) -/

/-- `pat` occurs contiguously at the head of `cs`. -/
def empiezaCon : List Char → List Char → Bool
  | [], _ => true
  | _ :: _, [] => false
  | p :: ps, c :: resto => p == c && empiezaCon ps resto

/-- Python's `pat in texto`: `pat` occurs contiguously somewhere in `cs`. -/
def esSubcadena (pat : List Char) : List Char → Bool
  | [] => pat.isEmpty
  | c :: resto => empiezaCon pat (c :: resto) || esSubcadena pat resto

/-- `any(kw in texto_min for kw in claves)`. -/
def contieneAlguna (textoMin : String) (claves : List String) : Bool :=
  claves.any (fun kw => esSubcadena kw.data textoMin.data)

/-- The `dias_es` list of section 4, in the source's order. -/
def listaDias : List String :=
  ["lunes", "martes", "miercoles", "miércoles", "jueves", "viernes",
   "sabado", "sábado", "domingo"]

/-- The `for dia in dias_es: if dia in texto_min:` loop of patterns 2 and 3. -/
def primerDiaEnTexto (textoMin : String) (ahora : Fecha) (proximaSemana : Bool) :
    Option Fecha :=
  match listaDias.find? (fun dia => esSubcadena dia.data textoMin.data) with
  | some dia => obtenerProximoDiaSemana dia ahora proximaSemana
  | none => none

/-- Patterns 1–4 and the last-resort default of section 4, before the
past-date check.  `dparse` is the `dateparser.parse` oracle. -/
def resolverPatrones (textoMin : String) (ahora : Fecha) (dparse : String → Option Fecha) :
    Fecha :=
  match resolverExplicita textoMin ahora with
  | some f => f
  | none =>
    match (if contieneAlguna textoMin ["próximo", "proximo", "siguiente"]
           then primerDiaEnTexto textoMin ahora true else none) with
    | some f => f
    | none =>
      match (if contieneAlguna textoMin ["este", "este semana"]
             then primerDiaEnTexto textoMin ahora false else none) with
      | some f => f
      | none =>
        match dparse textoMin with
        | some f => f
        | none => sumarDias ahora 1

/-- The resolved due date: the strategy chain, then the past-date escalation
to `_pedir_confirmacion_fecha`. -/
def resolverFecha (texto : String) (ahora : Fecha) (dparse : String → Option Fecha)
    (respuestas : List Resp) : Option Fecha :=
  let f := resolverPatrones (minusculasPy texto) ahora dparse
  if fechaMenor f ahora then pedirConfirmacionFecha texto f ahora respuestas
  else some f

/-- The record `procesar_logica_negocio` returns. -/
structure Tarea where
  nombre : String
  fecha : String
  tipo : String
  prioridad : String
  materia : String
deriving DecidableEq

/-- `procesar_logica_negocio(texto)`, with the reference instant and the two
external channels as parameters.  `none` models the run not returning (the
confirmation loop never getting a usable reply, or its uncaught exception). -/
def procesarLogicaNegocio (texto : String) (ahora : Fecha)
    (dparse : String → Option Fecha) (respuestas : List Resp) : Option Tarea :=
  let tokens := tokenizar texto
  let tokensClean := removerStopwords tokens
  match resolverFecha texto ahora dparse respuestas with
  | none => none
  | some fechaDt =>
    some ⟨capitalizarPy texto, formatearFecha fechaDt, tipoFinal tokensClean,
          prioridadDe tokens tokensClean, materiaFinal tokensClean⟩

/-! ## Basic lemmas about the token machinery -/

theorem indicePrimero_lt_length (tokens : List String) (x : String) (h : x ∈ tokens) :
    indicePrimero tokens x < tokens.length := by
  induction tokens with
  | nil => cases h
  | cons t resto ih =>
    simp only [indicePrimero, List.length_cons]
    by_cases ht : t = x
    · simp [ht]
    · have hx : x ∈ resto := by
        rcases List.mem_cons.mp h with h1 | h1
        · exact absurd h1.symm ht
        · exact h1
      have := ih hx
      simp only [if_neg ht]
      omega

/-- Shared characterisation of `tiene_negacion` at the source's window 3:
true exactly when the word occurs and some position from three before to two
after its first occurrence (the position itself included) holds a negation
word. -/
theorem tieneNegacion_caracterizacion (tokens : List String) (palabra : String) :
    tieneNegacion tokens palabra 3 = true ↔
      palabra ∈ tokens ∧ ∃ i, i < tokens.length ∧
        indicePrimero tokens palabra ≤ i + 3 ∧
        i < indicePrimero tokens palabra + 3 ∧
        tokens.getD i "" ∈ negaciones := by
  unfold tieneNegacion
  by_cases hm : palabra ∈ tokens
  · have hidx := indicePrimero_lt_length tokens palabra hm
    rw [if_pos hm]
    simp only [List.any_eq_true, List.mem_range'_1, List.contains, List.elem_iff]
    constructor
    · rintro ⟨i, ⟨h1, h2⟩, h3⟩
      exact ⟨hm, i, by omega, by omega, by omega, h3⟩
    · rintro ⟨-, i, h1, h2, h3, h4⟩
      exact ⟨i, ⟨by omega, by omega⟩, h4⟩
  · simp [hm]

/-! ## C4 and C5 -/

/-- C4, counterexample: "no" is a member of the stopword set, and
`remover_stopwords` deletes it from a token list, contradicting the claim
that none of the five negation words is a stopword. -/
theorem c4_contraejemplo_no_es_stopword :
    "no" ∈ STOPWORDS_ES ∧ removerStopwords ["no"] = [] := by
  constructor
  · decide
  · decide

/-- C4 as amended: of the five negation words, "nunca", "jamás", "nada" and
"ni" are not in the stopword set and every occurrence of them survives
`remover_stopwords`, but "no" is in the stopword set (so `remover_stopwords`
deletes it; negation detection is unaffected because `tiene_negacion` runs
on the unfiltered tokens). -/
theorem c4_stopwords_y_negaciones :
    ("no" ∈ STOPWORDS_ES) ∧
    (∀ w ∈ (["nunca", "jamás", "nada", "ni"] : List String), w ∉ STOPWORDS_ES) ∧
    (∀ (tokens : List String), ∀ w ∈ (["nunca", "jamás", "nada", "ni"] : List String),
      List.count w (removerStopwords tokens) = List.count w tokens) := by
  refine ⟨by decide, by decide, ?_⟩
  intro tokens w hw
  apply List.count_filter
  fin_cases hw <;> decide

/-- C4, witness: the preservation clause applied at a concrete token list. -/
theorem c4_stopwords_y_negaciones_testigo :
    List.count "nunca" (removerStopwords ["nunca", "el", "nunca"]) =
      List.count "nunca" ["nunca", "el", "nunca"] :=
  c4_stopwords_y_negaciones.2.2 ["nunca", "el", "nunca"] "nunca" (by decide)

/-- C5, counterexample: "urgente" occurs first at index 0 and the negation
word "no" stands at index 3 — within 3 positions after it, as the claim
reads — yet `tiene_negacion` returns false, because the source scans
`range(idx - 3, min(len, idx + 3))`, which stops at index idx + 2. -/
theorem c5_contraejemplo_ventana :
    tieneNegacion ["urgente", "con", "eso", "no"] "urgente" 3 = false ∧
    indicePrimero ["urgente", "con", "eso", "no"] "urgente" = 0 ∧
    (["urgente", "con", "eso", "no"] : List String).getD 3 "" = "no" ∧
    "no" ∈ negaciones ∧
    "urgente" ∈ (["urgente", "con", "eso", "no"] : List String) := by
  refine ⟨by decide, by decide, by decide, by decide, by decide⟩

/-- C5 as amended: `tiene_negacion(tokens, word, 3)` is true iff the word
occurs in the tokens and a negation word stands at a position from three
before the first occurrence up to two after it (the occurrence's own
position included); with the word absent it is false. -/
theorem c5_tieneNegacion_ventana :
    (∀ (tokens : List String) (palabra : String),
      tieneNegacion tokens palabra 3 = true ↔
        palabra ∈ tokens ∧ ∃ i, i < tokens.length ∧
          indicePrimero tokens palabra ≤ i + 3 ∧
          i < indicePrimero tokens palabra + 3 ∧
          tokens.getD i "" ∈ negaciones) ∧
    (∀ (tokens : List String) (palabra : String),
      palabra ∉ tokens → tieneNegacion tokens palabra 3 = false) := by
  constructor
  · exact tieneNegacion_caracterizacion
  · intro tokens palabra h
    unfold tieneNegacion
    simp [h]

/-! ## Field projections of the interpreter's record -/

/-- Whenever `procesar_logica_negocio` returns, each field of the record is
the corresponding stage's output on the input text. -/
theorem procesar_campos (texto : String) (ahora : Fecha) (dparse : String → Option Fecha)
    (respuestas : List Resp) (r : Tarea)
    (h : procesarLogicaNegocio texto ahora dparse respuestas = some r) :
    r.nombre = capitalizarPy texto ∧
    r.tipo = tipoFinal (removerStopwords (tokenizar texto)) ∧
    r.prioridad = prioridadDe (tokenizar texto) (removerStopwords (tokenizar texto)) ∧
    r.materia = materiaFinal (removerStopwords (tokenizar texto)) ∧
    ∃ d, resolverFecha texto ahora dparse respuestas = some d ∧ r.fecha = formatearFecha d := by
  unfold procesarLogicaNegocio at h
  cases hr : resolverFecha texto ahora dparse respuestas with
  | none => rw [hr] at h; cases h
  | some d =>
    rw [hr] at h
    cases h
    exact ⟨rfl, rfl, rfl, rfl, d, rfl, rfl⟩

/-! ## C2 -/

/-- C2, counterexample: on the claim's literal input the interpreter's
priority field is "Media", not the claimed "Baja" (the urgency keyword is
negated, so High is not applied, and no mildness keyword is present, so the
default Medium stands); the subject is "Realidad Nacional" as claimed. -/
theorem c2_contraejemplo_prioridad :
    (procesarLogicaNegocio "No es urgente pero debo entregar el deber de realidad nacional"
        ⟨2025, 3, 1⟩ (fun _ => none) []).map Tarea.prioridad = some "Media" ∧
    (procesarLogicaNegocio "No es urgente pero debo entregar el deber de realidad nacional"
        ⟨2025, 3, 1⟩ (fun _ => none) []).map Tarea.prioridad ≠ some "Baja" ∧
    (procesarLogicaNegocio "No es urgente pero debo entregar el deber de realidad nacional"
        ⟨2025, 3, 1⟩ (fun _ => none) []).map Tarea.materia = some "Realidad Nacional" := by
  exact ⟨by decide, by decide, by decide⟩

/-- C2 as amended: on the literal input the interpreter returns priority
"Media" (urgency negated, mildness absent, so the default holds per the
resolver's precedence) and subject "Realidad Nacional", whatever the
reference instant and the external channels. -/
theorem c2_prioridad_y_materia :
    prioridadDe (tokenizar "No es urgente pero debo entregar el deber de realidad nacional")
      (removerStopwords
        (tokenizar "No es urgente pero debo entregar el deber de realidad nacional")) =
      "Media" ∧
    materiaFinal
      (removerStopwords
        (tokenizar "No es urgente pero debo entregar el deber de realidad nacional")) =
      "Realidad Nacional" ∧
    ∀ (ahora : Fecha) (dparse : String → Option Fecha) (respuestas : List Resp) (r : Tarea),
      procesarLogicaNegocio "No es urgente pero debo entregar el deber de realidad nacional"
          ahora dparse respuestas = some r →
      r.prioridad = "Media" ∧ r.materia = "Realidad Nacional" := by
  refine ⟨by decide, by decide, ?_⟩
  intro ahora dparse respuestas r h
  obtain ⟨-, -, hp, hm, -⟩ := procesar_campos _ _ _ _ _ h
  rw [hp, hm]
  exact ⟨by decide, by decide⟩

/-- C2, witness: the record clause applied at a concrete run. -/
theorem c2_prioridad_y_materia_testigo :
    (⟨"No es urgente pero debo entregar el deber de realidad nacional", "2025-03-02",
        "Entrega", "Media", "Realidad Nacional"⟩ : Tarea).prioridad = "Media" ∧
    (⟨"No es urgente pero debo entregar el deber de realidad nacional", "2025-03-02",
        "Entrega", "Media", "Realidad Nacional"⟩ : Tarea).materia = "Realidad Nacional" :=
  c2_prioridad_y_materia.2.2 ⟨2025, 3, 1⟩ (fun _ => none) [] _ (by decide)

/-! ## C3 -/

/-- C3, counterexample: on input "entrega APP" the interpreter's title field
is "Entrega app" — `str.capitalize()` lower-cases everything after the first
character — not the "Entrega APP" the claim (first letter capitalised, the
rest unchanged) prescribes. -/
theorem c3_contraejemplo_nombre :
    (procesarLogicaNegocio "entrega APP" ⟨2025, 3, 1⟩ (fun _ => none) []).map Tarea.nombre =
      some "Entrega app" ∧
    some ("Entrega app" : String) ≠ some ("Entrega APP" : String) := by
  exact ⟨by decide, by decide⟩

/-- C3 as amended: for every input, the title field of the returned record is
the input with its first character upper-cased and every later character
lower-cased (Python `str.capitalize`). -/
theorem c3_nombre_capitalizado :
    ∀ (texto : String) (ahora : Fecha) (dparse : String → Option Fecha)
      (respuestas : List Resp) (r : Tarea),
      procesarLogicaNegocio texto ahora dparse respuestas = some r →
      r.nombre.data =
        match texto.data with
        | [] => ([] : List Char)
        | c :: resto => c.toUpper :: resto.map Char.toLower := by
  intro texto ahora dparse respuestas r h
  obtain ⟨hn, -, -, -, -⟩ := procesar_campos _ _ _ _ _ h
  rw [hn]
  unfold capitalizarPy
  cases hd : texto.data with
  | nil => simp [hd]
  | cons c resto => simp [hd]

/-- C3, witness: the amended statement at a concrete run. -/
theorem c3_nombre_capitalizado_testigo :
    ("Entrega app" : String).data =
      match ("entrega APP" : String).data with
      | [] => ([] : List Char)
      | c :: resto => c.toUpper :: resto.map Char.toLower := by
  have h := c3_nombre_capitalizado "entrega APP" ⟨2025, 3, 1⟩ (fun _ => none) []
    ⟨"Entrega app", "2025-03-02", "Entrega", "Media", "Aplicaciones Web y Móviles"⟩
    (by decide)
  exact h

/-! ## Lemmas about the fuzzy matcher -/

theorem parLt_verdadero_iff (p q : ℕ × ℕ) (hp : 0 < p.2) (hq : 0 < q.2) :
    parLt p q = true ↔ valorPar p < valorPar q := by
  unfold parLt valorPar
  rw [decide_eq_true_iff, div_lt_div_iff₀ (by exact_mod_cast hp) (by exact_mod_cast hq)]
  exact_mod_cast Iff.rfl

theorem parLe_verdadero_iff (p q : ℕ × ℕ) (hp : 0 < p.2) (hq : 0 < q.2) :
    parLe p q = true ↔ valorPar p ≤ valorPar q := by
  unfold parLe valorPar
  rw [decide_eq_true_iff, div_le_div_iff₀ (by exact_mod_cast hp) (by exact_mod_cast hq)]
  exact_mod_cast Iff.rfl

theorem parSimilitud_den_pos (a b : List Char) : 0 < (parSimilitud a b).2 := by
  unfold parSimilitud
  split
  · simp
  · simp
    omega

theorem similitud_valor (entrada opcion : String) :
    similitud entrada opcion =
      valorPar (parSimilitud (normalizarTexto entrada).data (normalizarTexto opcion).data) :=
  rfl

/-- The fold of Python's first-max `max(..., key=...)`: its result splits the
list into a strictly-smaller prefix, the result, and a remainder no larger
than it. -/
theorem plegarMejor_spec (resto : List (String × (ℕ × ℕ))) :
    ∀ (mejor : String × (ℕ × ℕ)),
      (∀ q ∈ mejor :: resto, 0 < q.2.2) →
      ∃ pre post, mejor :: resto = pre ++ plegarMejor mejor resto :: post ∧
        (∀ q ∈ pre, valorPar q.2 < valorPar (plegarMejor mejor resto).2) ∧
        (∀ q ∈ mejor :: resto, valorPar q.2 ≤ valorPar (plegarMejor mejor resto).2) := by
  induction resto with
  | nil =>
    intro mejor _
    exact ⟨[], [], rfl, by simp, by simp [plegarMejor]⟩
  | cons p resto ih =>
    intro mejor hpos
    have hpm : 0 < mejor.2.2 := hpos mejor (by simp)
    have hpp : 0 < p.2.2 := hpos p (by simp)
    by_cases hb : parLt mejor.2 p.2 = true
    · have hlt : valorPar mejor.2 < valorPar p.2 :=
        (parLt_verdadero_iff _ _ hpm hpp).mp hb
      have hrec := ih p (by
        intro q hq
        exact hpos q (List.mem_cons_of_mem mejor hq))
      obtain ⟨pre1, post1, heq, hpre1, hall1⟩ := hrec
      have hres : plegarMejor mejor (p :: resto) = plegarMejor p resto := by
        simp [plegarMejor, hb]
      rw [hres]
      have hple : valorPar p.2 ≤ valorPar (plegarMejor p resto).2 :=
        hall1 p (List.mem_cons_self p resto)
      refine ⟨mejor :: pre1, post1, ?_, ?_, ?_⟩
      · rw [List.cons_append, ← heq]
      · intro q hq
        rcases List.mem_cons.mp hq with rfl | h1
        · exact lt_of_lt_of_le hlt hple
        · exact hpre1 q h1
      · intro q hq
        rcases List.mem_cons.mp hq with rfl | h1
        · exact le_of_lt (lt_of_lt_of_le hlt hple)
        · exact hall1 q h1
    · have hge : valorPar p.2 ≤ valorPar mejor.2 := by
        have := (parLt_verdadero_iff mejor.2 p.2 hpm hpp).not.mp (by simpa using hb)
        exact le_of_not_lt this
      have hrec := ih mejor (by
        intro q hq
        rcases List.mem_cons.mp hq with rfl | h1
        · exact hpm
        · exact hpos q (List.mem_cons_of_mem mejor (List.mem_cons_of_mem p h1)))
      obtain ⟨pre1, post1, heq, hpre1, hall1⟩ := hrec
      have hres : plegarMejor mejor (p :: resto) = plegarMejor mejor resto := by
        simp [plegarMejor, hb]
      rw [hres]
      cases pre1 with
      | nil =>
        simp only [List.nil_append] at heq
        injection heq with h1 h2
        refine ⟨[], p :: resto, ?_, by simp, ?_⟩
        · rw [List.nil_append, ← h1]
        · intro q hq
          rcases List.mem_cons.mp hq with rfl | h1q
          · rw [← h1]
          · rcases List.mem_cons.mp h1q with rfl | h2q
            · rw [← h1]; exact hge
            · exact hall1 q (List.mem_cons_of_mem mejor h2q)
      | cons x pre2 =>
        injection heq with hx hresto
        have hmlt : valorPar mejor.2 < valorPar (plegarMejor mejor resto).2 := by
          have := hpre1 x (List.mem_cons_self x pre2)
          rwa [← hx] at this
        refine ⟨mejor :: p :: pre2, post1, ?_, ?_, ?_⟩
        · rw [List.cons_append, List.cons_append]
          exact congrArg (List.cons mejor) (congrArg (List.cons p) hresto)
        · intro q hq
          rcases List.mem_cons.mp hq with h1q | h1q
          · rw [h1q]
            exact hmlt
          · rcases List.mem_cons.mp h1q with h2q | h2q
            · rw [h2q]
              exact lt_of_le_of_lt hge hmlt
            · exact hpre1 q (List.mem_cons_of_mem x h2q)
        · intro q hq
          rcases List.mem_cons.mp hq with h1q | h1q
          · rw [h1q]
            exact hall1 mejor (List.mem_cons_self mejor resto)
          · rcases List.mem_cons.mp h1q with h2q | h2q
            · rw [h2q]
              exact le_trans hge (hall1 mejor (List.mem_cons_self mejor resto))
            · exact hall1 q (List.mem_cons_of_mem mejor h2q)

/-- The `mejores` list is the threshold-filtered candidate list, each
candidate paired with its ratio, in order. -/
theorem mejoresDe_filtro (entrada : String) (umbral : ℕ × ℕ) (opciones : List String) :
    mejoresDe entrada opciones umbral =
      (opciones.filter (fun o =>
        parLe umbral (parSimilitud (normalizarTexto entrada).data (normalizarTexto o).data))).map
        (fun o => (o, parSimilitud (normalizarTexto entrada).data (normalizarTexto o).data)) := by
  induction opciones with
  | nil => rfl
  | cons o resto ih =>
    unfold mejoresDe at ih ⊢
    rw [List.filterMap_cons, List.filter_cons]
    by_cases hq : parLe umbral
        (parSimilitud (normalizarTexto entrada).data (normalizarTexto o).data) = true
    · simp only [hq, if_true, ih, List.map_cons]
    · simp only [hq, if_false, ih]
      simp [hq]

/-- Transfer of a split of `(os.filter q).map g` back to a split of `os`. -/
theorem particion_filtrada {α β : Type} (q : α → Bool) (g : α → β) :
    ∀ (os : List α) (pre1 : List β) (x : β) (post1 : List β),
      (os.filter q).map g = pre1 ++ x :: post1 →
      ∃ pre o post, os = pre ++ o :: post ∧ q o = true ∧ g o = x ∧
        ((pre.filter q).map g = pre1) := by
  intro os
  induction os with
  | nil =>
    intro pre1 x post1 h
    simp at h
  | cons o resto ih =>
    intro pre1 x post1 h
    rw [List.filter_cons] at h
    by_cases hq : q o = true
    · rw [if_pos hq, List.map_cons] at h
      cases pre1 with
      | nil =>
        simp only [List.nil_append] at h
        injection h with h1 h2
        exact ⟨[], o, resto, rfl, hq, h1, by simp⟩
      | cons y pre2 =>
        injection h with h1 h2
        obtain ⟨pre, o2, post, hsplit, hq2, hg2, hmap⟩ := ih pre2 x post1 h2
        refine ⟨o :: pre, o2, post, by rw [hsplit, List.cons_append], hq2, hg2, ?_⟩
        rw [List.filter_cons, if_pos hq, List.map_cons, hmap, h1]
    · rw [if_neg hq] at h
      obtain ⟨pre, o2, post, hsplit, hq2, hg2, hmap⟩ := ih pre1 x post1 h
      refine ⟨o :: pre, o2, post, by rw [hsplit, List.cons_append], hq2, hg2, ?_⟩
      rw [List.filter_cons, if_neg hq, hmap]

/-- Every element of `mejores` is a candidate with its own ratio, at or above
the threshold. -/
theorem mejoresDe_mem (entrada : String) (opciones : List String) (umbral : ℕ × ℕ)
    (par : String × (ℕ × ℕ)) (h : par ∈ mejoresDe entrada opciones umbral) :
    par.1 ∈ opciones ∧
    par.2 = parSimilitud (normalizarTexto entrada).data (normalizarTexto par.1).data ∧
    parLe umbral par.2 = true := by
  unfold mejoresDe at h
  rw [List.mem_filterMap] at h
  obtain ⟨o, ho, hf⟩ := h
  by_cases hq : parLe umbral
      (parSimilitud (normalizarTexto entrada).data (normalizarTexto o).data) = true
  · simp only [hq, if_true] at hf
    injection hf with hf
    rw [← hf]
    exact ⟨ho, rfl, hq⟩
  · simp only [hq, if_false] at hf
    cases hf

/-- If the fuzzy search returns a candidate, it is one of the supplied
candidates, returned verbatim. -/
theorem buscar_alguno_en_opciones (entrada : String) (opciones : List String)
    (umbral : ℕ × ℕ) (c : String)
    (h : buscarConceptoFuzzy entrada opciones umbral = some c) : c ∈ opciones := by
  unfold buscarConceptoFuzzy at h
  cases hm : mejoresDe entrada opciones umbral with
  | nil => rw [hm] at h; cases h
  | cons p resto =>
    rw [hm] at h
    injection h with h
    have hden : ∀ q ∈ p :: resto, 0 < q.2.2 := by
      intro q hq
      rw [← hm] at hq
      obtain ⟨-, hpar, -⟩ := mejoresDe_mem entrada opciones umbral q hq
      rw [hpar]
      exact parSimilitud_den_pos _ _
    obtain ⟨pre, post, heq, -, -⟩ := plegarMejor_spec resto p hden
    have hmem : plegarMejor p resto ∈ mejoresDe entrada opciones umbral := by
      rw [hm, heq]
      exact List.mem_append_right pre (List.mem_cons_self _ _)
    obtain ⟨hopt, -, -⟩ := mejoresDe_mem entrada opciones umbral _ hmem
    rw [← h]
    exact hopt

theorem valorPar_tres_cuartos : valorPar (3, 4) = (3 : ℚ) / 4 := by
  norm_num [valorPar]

/-- Threshold test against 0.75, read as a rational inequality. -/
theorem parLe_umbral_iff (p : ℕ × ℕ) (hp : 0 < p.2) :
    parLe (3, 4) p = true ↔ (3 : ℚ) / 4 ≤ valorPar p := by
  rw [parLe_verdadero_iff (3, 4) p (by norm_num) hp, valorPar_tres_cuartos]

/-! ## C8 and C10 -/

/-- C8: at the default threshold 0.75, `buscar_concepto_fuzzy` returns none
exactly when no candidate's ratio against the normalised input reaches the
threshold; when it returns a candidate, that candidate is in the list, its
ratio is at or above the threshold and is the maximum, every earlier
candidate rating strictly below it (first-encountered maximum in
accumulation order); and on "examne" against ["examen", "proyecto"] it
returns "examen". -/
theorem c8_fuzzy_umbral_maximo :
    (∀ (entrada : String) (opciones : List String),
      buscarConceptoFuzzy entrada opciones (3, 4) = none ↔
        ∀ o ∈ opciones, similitud entrada o < 3 / 4) ∧
    (∀ (entrada : String) (opciones : List String) (c : String),
      buscarConceptoFuzzy entrada opciones (3, 4) = some c →
        ∃ pre post, opciones = pre ++ c :: post ∧
          (3 : ℚ) / 4 ≤ similitud entrada c ∧
          (∀ o ∈ pre, similitud entrada o < similitud entrada c) ∧
          (∀ o ∈ opciones, (3 : ℚ) / 4 ≤ similitud entrada o →
            similitud entrada o ≤ similitud entrada c)) ∧
    buscarConceptoFuzzy "examne" ["examen", "proyecto"] (3, 4) = some "examen" := by
  refine ⟨?_, ?_, by decide⟩
  · intro entrada opciones
    constructor
    · intro h o ho
      cases hm : mejoresDe entrada opciones (3, 4) with
      | cons p restoM =>
        unfold buscarConceptoFuzzy at h
        rw [hm] at h
        cases h
      | nil =>
        unfold mejoresDe at hm
        have hnone := List.filterMap_eq_nil_iff.mp hm o ho
        by_cases hq : parLe (3, 4)
            (parSimilitud (normalizarTexto entrada).data (normalizarTexto o).data) = true
        · simp only [hq, if_true] at hnone
          simp at hnone
        · rw [similitud_valor]
          have := (parLe_umbral_iff _ (parSimilitud_den_pos _ _)).not.mp (by simpa using hq)
          exact lt_of_not_le this
    · intro h
      cases hm : mejoresDe entrada opciones (3, 4) with
      | nil =>
        unfold buscarConceptoFuzzy
        rw [hm]
      | cons p restoM =>
        have hp : p ∈ mejoresDe entrada opciones (3, 4) := by
          rw [hm]
          exact List.mem_cons_self p restoM
        obtain ⟨hop, hpar, hth⟩ := mejoresDe_mem entrada opciones (3, 4) p hp
        have h34 : (3 : ℚ) / 4 ≤ similitud entrada p.1 := by
          rw [similitud_valor, ← hpar]
          exact (parLe_umbral_iff _ (by rw [hpar]; exact parSimilitud_den_pos _ _)).mp hth
        exact absurd h34 (not_le.mpr (h p.1 hop))
  · intro entrada opciones c h
    unfold buscarConceptoFuzzy at h
    cases hm : mejoresDe entrada opciones (3, 4) with
    | nil => rw [hm] at h; cases h
    | cons p restoM =>
      rw [hm] at h
      injection h with h
      have hden : ∀ q ∈ p :: restoM, 0 < q.2.2 := by
        intro par hpar
        rw [← hm] at hpar
        obtain ⟨-, hp2, -⟩ := mejoresDe_mem entrada opciones (3, 4) par hpar
        rw [hp2]
        exact parSimilitud_den_pos _ _
      obtain ⟨pre1, post1, heq, hpre1, hall1⟩ := plegarMejor_spec restoM p hden
      have hsplit1 :
          (opciones.filter (fun o =>
            parLe (3, 4)
              (parSimilitud (normalizarTexto entrada).data (normalizarTexto o).data))).map
            (fun o =>
              (o, parSimilitud (normalizarTexto entrada).data (normalizarTexto o).data)) =
            pre1 ++ plegarMejor p restoM :: post1 := by
        rw [← mejoresDe_filtro, hm]
        exact heq
      obtain ⟨pre, o, post, hos, hqo, hgo, hmap⟩ :=
        particion_filtrada _ _ opciones pre1 (plegarMejor p restoM) post1 hsplit1
      have hc : c = o := by
        rw [← h, ← hgo]
      subst hc
      have hr2 : (plegarMejor p restoM).2 =
          parSimilitud (normalizarTexto entrada).data (normalizarTexto c).data := by
        rw [← hgo]
      refine ⟨pre, post, hos, ?_, ?_, ?_⟩
      · rw [similitud_valor]
        exact (parLe_umbral_iff _ (parSimilitud_den_pos _ _)).mp hqo
      · intro o2 ho2
        by_cases hq2 : parLe (3, 4)
            (parSimilitud (normalizarTexto entrada).data (normalizarTexto o2).data) = true
        · have hmem1 : (o2, parSimilitud (normalizarTexto entrada).data
              (normalizarTexto o2).data) ∈ pre1 := by
            rw [← hmap]
            exact List.mem_map_of_mem _ (List.mem_filter.mpr ⟨ho2, hq2⟩)
          have := hpre1 _ hmem1
          rw [hr2] at this
          rw [similitud_valor, similitud_valor]
          simpa using this
        · have hlt : similitud entrada o2 < 3 / 4 := by
            rw [similitud_valor]
            have := (parLe_umbral_iff _ (parSimilitud_den_pos _ _)).not.mp (by simpa using hq2)
            exact lt_of_not_le this
          have h34 : (3 : ℚ) / 4 ≤ similitud entrada c := by
            rw [similitud_valor]
            exact (parLe_umbral_iff _ (parSimilitud_den_pos _ _)).mp hqo
          exact lt_of_lt_of_le hlt h34
      · intro o2 ho2 hth
        have hq2 : parLe (3, 4)
            (parSimilitud (normalizarTexto entrada).data (normalizarTexto o2).data) = true := by
          rw [parLe_umbral_iff _ (parSimilitud_den_pos _ _)]
          rw [similitud_valor] at hth
          exact hth
        have hmem1 : (o2, parSimilitud (normalizarTexto entrada).data
            (normalizarTexto o2).data) ∈ p :: restoM := by
          rw [← hm, mejoresDe_filtro entrada (3, 4) opciones]
          exact List.mem_map_of_mem _ (List.mem_filter.mpr ⟨ho2, hq2⟩)
        have := hall1 _ hmem1
        rw [hr2] at this
        rw [similitud_valor, similitud_valor]
        simpa using this

/-- C10: for every input, candidate list and threshold, the fuzzy search
returns none or one of the supplied candidates verbatim. -/
theorem c10_resultado_es_opcion :
    ∀ (entrada : String) (opciones : List String) (umbral : ℕ × ℕ) (c : String),
      buscarConceptoFuzzy entrada opciones umbral = some c → c ∈ opciones :=
  buscar_alguno_en_opciones

/-- C10, witness: the theorem applied at a concrete search. -/
theorem c10_resultado_es_opcion_testigo :
    "examen" ∈ (["examen", "proyecto"] : List String) :=
  c10_resultado_es_opcion "examne" ["examen", "proyecto"] (3, 4) "examen" (by decide)

/-! ## Calendar lemmas -/

theorem diasEnMes_pos (y m : ℕ) (h1 : 1 ≤ m) (h2 : m ≤ 12) : 1 ≤ diasEnMes y m := by
  unfold diasEnMes
  split_ifs <;> omega

set_option maxHeartbeats 1600000 in
theorem diasAntesDeMes_paso (y m : ℕ) (h1 : 1 ≤ m) (h2 : m ≤ 11) :
    diasAntesDeMes y (m + 1) = diasAntesDeMes y m + diasEnMes y m := by
  by_cases hb : esBisiesto y <;>
    (interval_cases m <;> simp [diasAntesDeMes, diasEnMes, hb])

theorem diasAntesDeMes_doce (y : ℕ) :
    diasAntesDeMes y 12 + diasEnMes y 12 = 365 + (if esBisiesto y then 1 else 0) := by
  by_cases hb : esBisiesto y <;> simp [diasAntesDeMes, diasEnMes, hb]

set_option maxHeartbeats 1600000 in
theorem diasAntesDeAno_paso (y : ℕ) (hy : 1 ≤ y) :
    diasAntesDeAno (y + 1) = diasAntesDeAno y + 365 + (if esBisiesto y then 1 else 0) := by
  unfold diasAntesDeAno esBisiesto
  split_ifs with hb
  · unfold esBisiesto at hb
    omega
  · unfold esBisiesto at hb
    omega

theorem aOrdinal_diaSiguiente (d : Fecha) (hv : validFecha d) :
    aOrdinal (diaSiguiente d) = aOrdinal d + 1 := by
  obtain ⟨hy, hm1, hm2, hd1, hd2⟩ := hv
  unfold diaSiguiente
  split_ifs with h1 h2
  · simp [aOrdinal]
    omega
  · have hdia : d.day = diasEnMes d.year d.month := by omega
    have hpaso := diasAntesDeMes_paso d.year d.month hm1 (by omega)
    simp only [aOrdinal]
    rw [hpaso, hdia]
    omega
  · have hm12 : d.month = 12 := by omega
    have hdia : d.day = diasEnMes d.year 12 := by rw [← hm12]; omega
    have hdoce := diasAntesDeMes_doce d.year
    have hano := diasAntesDeAno_paso d.year hy
    have hcero : diasAntesDeMes (d.year + 1) 1 = 0 := by simp [diasAntesDeMes]
    simp only [aOrdinal, hm12]
    rw [hano, hcero, hdia]
    omega

theorem validFecha_diaSiguiente (d : Fecha) (hv : validFecha d) :
    validFecha (diaSiguiente d) := by
  obtain ⟨hy, hm1, hm2, hd1, hd2⟩ := hv
  unfold diaSiguiente validFecha
  split_ifs with h1 h2
  · dsimp only
    exact ⟨hy, hm1, hm2, by omega, by omega⟩
  · dsimp only
    have hp := diasEnMes_pos d.year (d.month + 1) (by omega) (by omega)
    exact ⟨hy, by omega, by omega, by omega, hp⟩
  · dsimp only
    have hp := diasEnMes_pos (d.year + 1) 1 (by omega) (by omega)
    exact ⟨by omega, by omega, by omega, by omega, hp⟩

theorem diaSiguiente_year (d : Fecha) :
    d.year ≤ (diaSiguiente d).year ∧ (diaSiguiente d).year ≤ d.year + 1 := by
  unfold diaSiguiente
  split_ifs <;> simp

theorem sumarDias_ordinal (d : Fecha) (hv : validFecha d) (k : ℕ) :
    aOrdinal (sumarDias d k) = aOrdinal d + k ∧ validFecha (sumarDias d k) := by
  induction k with
  | zero => exact ⟨rfl, hv⟩
  | succ n ih =>
    have h1 := aOrdinal_diaSiguiente (sumarDias d n) ih.2
    have h2 := validFecha_diaSiguiente (sumarDias d n) ih.2
    constructor
    · show aOrdinal (diaSiguiente (sumarDias d n)) = aOrdinal d + (n + 1)
      omega
    · exact h2

theorem sumarDias_year (d : Fecha) (k : ℕ) :
    d.year ≤ (sumarDias d k).year ∧ (sumarDias d k).year ≤ d.year + k := by
  induction k with
  | zero => exact ⟨le_refl _, by simp [sumarDias]⟩
  | succ n ih =>
    have := diaSiguiente_year (sumarDias d n)
    constructor
    · show d.year ≤ (diaSiguiente (sumarDias d n)).year
      omega
    · show (diaSiguiente (sumarDias d n)).year ≤ d.year + (n + 1)
      omega

theorem numeroDiaSemana_sumarDias (d : Fecha) (hv : validFecha d) (k : ℕ) :
    numeroDiaSemana (sumarDias d k) = (numeroDiaSemana d + k) % 7 := by
  unfold numeroDiaSemana
  rw [(sumarDias_ordinal d hv k).1]
  omega

theorem diasAntesDeMes_mono_aux (y m : ℕ) (h1 : 1 ≤ m) :
    ∀ k, m + k ≤ 12 → diasAntesDeMes y m ≤ diasAntesDeMes y (m + k) := by
  intro k
  induction k with
  | zero => intro _; exact le_refl _
  | succ n ih =>
    intro hk
    have hrec := ih (by omega)
    have hpaso := diasAntesDeMes_paso y (m + n) (by omega) (by omega)
    have : m + (n + 1) = (m + n) + 1 := by omega
    rw [this, hpaso]
    omega

theorem diasAntesDeMes_mono (y m m2 : ℕ) (h1 : 1 ≤ m) (h2 : m ≤ m2) (h3 : m2 ≤ 12) :
    diasAntesDeMes y m ≤ diasAntesDeMes y m2 := by
  have := diasAntesDeMes_mono_aux y m h1 (m2 - m) (by omega)
  have heq : m + (m2 - m) = m2 := by omega
  rwa [heq] at this

theorem diasAntesDeAno_mono_aux (y : ℕ) (h1 : 1 ≤ y) :
    ∀ k, diasAntesDeAno y ≤ diasAntesDeAno (y + k) := by
  intro k
  induction k with
  | zero => exact le_refl _
  | succ n ih =>
    have hpaso := diasAntesDeAno_paso (y + n) (by omega)
    have : y + (n + 1) = (y + n) + 1 := by omega
    rw [this, hpaso]
    omega

theorem diasAntesDeAno_mono (y y2 : ℕ) (h1 : 1 ≤ y) (h2 : y ≤ y2) :
    diasAntesDeAno y ≤ diasAntesDeAno y2 := by
  have := diasAntesDeAno_mono_aux y h1 (y2 - y)
  have heq : y + (y2 - y) = y2 := by omega
  rwa [heq] at this

/-- A valid date's ordinal never exceeds the day count before the next
year's January 1st. -/
theorem aOrdinal_cota_ano (d : Fecha) (hv : validFecha d) :
    aOrdinal d ≤ diasAntesDeAno (d.year + 1) := by
  obtain ⟨hy, hm1, hm2, hd1, hd2⟩ := hv
  have hano := diasAntesDeAno_paso d.year hy
  have hdoce := diasAntesDeMes_doce d.year
  have hcota : diasAntesDeMes d.year d.month + d.day ≤ 365 +
      (if esBisiesto d.year then 1 else 0) := by
    by_cases hm11 : d.month ≤ 11
    · have hpaso := diasAntesDeMes_paso d.year d.month hm1 hm11
      have hmono := diasAntesDeMes_mono d.year (d.month + 1) 12 (by omega) (by omega)
        (by omega)
      have hdimpos : 0 ≤ diasEnMes d.year 12 := Nat.zero_le _
      omega
    · have hm12 : d.month = 12 := by omega
      rw [hm12]
      rw [hm12] at hd2
      omega
  unfold aOrdinal
  omega

/-- Lexicographic date order implies ordinal order (for valid dates). -/
theorem aOrdinal_mono (a b : Fecha) (hva : validFecha a) (hvb : validFecha b)
    (h : a.year < b.year ∨ (a.year = b.year ∧
      (a.month < b.month ∨ (a.month = b.month ∧ a.day < b.day)))) :
    aOrdinal a < aOrdinal b := by
  obtain ⟨hya, hma1, hma2, hda1, hda2⟩ := hva
  obtain ⟨hyb, hmb1, hmb2, hdb1, hdb2⟩ := hvb
  rcases h with h | ⟨hy, h⟩
  · have h1 := aOrdinal_cota_ano a ⟨hya, hma1, hma2, hda1, hda2⟩
    have h2 := diasAntesDeAno_mono (a.year + 1) b.year (by omega) (by omega)
    have h3 : 0 ≤ diasAntesDeMes b.year b.month := Nat.zero_le _
    unfold aOrdinal at h1 ⊢
    omega
  · rcases h with h | ⟨hm, hd⟩
    · have hpaso := diasAntesDeMes_paso a.year a.month hma1 (by omega)
      have hmono := diasAntesDeMes_mono a.year (a.month + 1) b.month (by omega) (by omega)
        hmb2
      unfold aOrdinal
      rw [← hy]
      omega
    · unfold aOrdinal
      rw [← hy, ← hm]
      omega

/-- Python's date comparison agrees with ordinal comparison on valid dates. -/
theorem fechaMenor_iff_aOrdinal (a b : Fecha) (hva : validFecha a) (hvb : validFecha b) :
    fechaMenor a b = true ↔ aOrdinal a < aOrdinal b := by
  unfold fechaMenor
  rw [decide_eq_true_iff]
  constructor
  · exact aOrdinal_mono a b hva hvb
  · intro h
    by_contra hn
    have htri : (a.year < b.year ∨ (a.year = b.year ∧
        (a.month < b.month ∨ (a.month = b.month ∧ a.day < b.day)))) ∨
        (a.year = b.year ∧ a.month = b.month ∧ a.day = b.day) ∨
        (b.year < a.year ∨ (b.year = a.year ∧
        (b.month < a.month ∨ (b.month = a.month ∧ b.day < a.day)))) := by
      omega
    rcases htri with h1 | h2 | h3
    · exact hn h1
    · have : aOrdinal a = aOrdinal b := by
        unfold aOrdinal
        rw [h2.1, h2.2.1, h2.2.2]
      omega
    · have := aOrdinal_mono b a hvb hva h3
      omega

theorem fechaMenor_sumarDias_false (d : Fecha) (hv : validFecha d) (k : ℕ) :
    fechaMenor (sumarDias d k) d = false := by
  have h := sumarDias_ordinal d hv k
  by_contra hb
  have hbt : fechaMenor (sumarDias d k) d = true := by
    cases hx : fechaMenor (sumarDias d k) d
    · exact absurd hx hb
    · rfl
  have := (fechaMenor_iff_aOrdinal _ _ h.2 hv).mp hbt
  omega

theorem fechaMenor_sumarDias_true (d : Fecha) (hv : validFecha d) (k : ℕ) (hk : 1 ≤ k) :
    fechaMenor d (sumarDias d k) = true := by
  have h := sumarDias_ordinal d hv k
  exact (fechaMenor_iff_aOrdinal d (sumarDias d k) hv h.2).mpr (by omega)

/-! ## `_safe_date` and table lookups -/

theorem safeDate_spec (y m day : ℕ) (f : Fecha) (h : safeDate y m day = some f) :
    f.year = y ∧ f.month = m ∧ f.day = min day (diasEnMes y m) ∧
    1 ≤ m ∧ m ≤ 12 ∧ 1 ≤ y ∧ y ≤ 9999 ∧ validFecha f := by
  simp only [safeDate, ajustarDia] at h
  split_ifs at h with h1 h2
  · injection h with h
    subst h
    refine ⟨rfl, rfl, rfl, h1.1, h1.2, h2.1, h2.2.1, ?_⟩
    exact ⟨h2.1, h1.1, h1.2, h2.2.2, Nat.min_le_right day (diasEnMes y m)⟩

theorem safeDate_some (y m day : ℕ) (h1 : 1 ≤ m) (h2 : m ≤ 12) (h3 : 1 ≤ y)
    (h4 : y ≤ 9999) (h5 : 1 ≤ day) :
    safeDate y m day = some ⟨y, m, min day (diasEnMes y m)⟩ := by
  unfold safeDate ajustarDia
  have hp := diasEnMes_pos y m h1 h2
  rw [if_pos ⟨h1, h2⟩, if_pos ⟨h3, h4, Nat.le_min.mpr ⟨h5, hp⟩⟩]

theorem buscarClave_mem (clave : String) (l : List (String × ℕ)) (v : ℕ)
    (h : buscarClave clave l = some v) : (clave, v) ∈ l := by
  induction l with
  | nil => cases h
  | cons p resto ih =>
    obtain ⟨a, b⟩ := p
    unfold buscarClave at h
    by_cases hp : a = clave
    · rw [if_pos (by simpa using hp)] at h
      injection h with h
      rw [← hp, ← h]
      exact List.mem_cons_self (a, b) resto
    · rw [if_neg (by simpa using hp)] at h
      exact List.mem_cons_of_mem (a, b) (ih h)

/-! ## C6 -/

/-- C6: when the explicit day+month pattern matches with a recognised month,
the resolved year is the current year unless the month is strictly earlier,
or equal with a strictly smaller day — then next year; the day is clamped to
the last day of the resolved month; and "27 de febrero" with now = March 1,
2025 resolves to February 27 of the next year. -/
theorem c6_dia_mes_explicito :
    (∀ (textoMin : String) (ahora : Fecha) (dia mes : ℕ) (mesStr : String),
      validFecha ahora → ahora.year + 1 ≤ 9999 → 1 ≤ dia →
      buscarExplicita textoMin.data = some (dia, mesStr) →
      buscarClave mesStr mesesEs = some mes →
      resolverExplicita textoMin ahora =
        some ⟨(if mes < ahora.month ∨ (mes = ahora.month ∧ dia < ahora.day)
               then ahora.year + 1 else ahora.year), mes,
              min dia (diasEnMes
                (if mes < ahora.month ∨ (mes = ahora.month ∧ dia < ahora.day)
                 then ahora.year + 1 else ahora.year) mes)⟩) ∧
    resolverFecha "27 de febrero" ⟨2025, 3, 1⟩ (fun _ => none) [] = some ⟨2026, 2, 27⟩ := by
  constructor
  · intro textoMin ahora dia mes mesStr hv hy9 hd1 hbe hbc
    have hmes : (mesStr, mes) ∈ mesesEs := buscarClave_mem mesStr mesesEs mes hbc
    have hmb : 1 ≤ mes ∧ mes ≤ 12 := by
      have : ∀ p ∈ mesesEs, 1 ≤ p.2 ∧ p.2 ≤ 12 := by decide
      exact this (mesStr, mes) hmes
    unfold resolverExplicita
    rw [hbe]
    dsimp only
    rw [hbc]
    exact safeDate_some _ mes dia hmb.1 hmb.2 (by obtain ⟨h, -⟩ := hv; split <;> omega)
      (by obtain ⟨h, -⟩ := hv; split <;> omega) hd1
  · decide

/-- C6, witness: the explicit-pattern clause applied at the concrete
"27 de febrero" / March 1, 2025 instance. -/
theorem c6_dia_mes_explicito_testigo :
    resolverExplicita "27 de febrero" ⟨2025, 3, 1⟩ = some ⟨2026, 2, 27⟩ := by
  have h := c6_dia_mes_explicito.1 "27 de febrero" ⟨2025, 3, 1⟩ 27 2 "febrero"
    (by decide) (by decide) (by decide) (by decide) (by decide)
  exact h.trans (by decide)

/-! ## C7 -/

/-- C7: with the next-week qualifier, the weekday resolver returns the target
weekday forced at least one week out: in-week offset 0 gives exactly now + 7
days, otherwise the offset plus 7 extra days; the result is 7 to 13 days
ahead, falls on the requested weekday, and is strictly after now — never the
same day.  The second clause ties this to the interpreter: when the explicit
pattern found nothing, a qualifier keyword is in the text and a weekday name
is found in it, the resolved date is exactly this resolver's answer. -/
theorem c7_proximo_dia_semana :
    (∀ (nombreDia : String) (ahora : Fecha) (objetivo : ℕ),
      validFecha ahora →
      buscarClave nombreDia diasSemanaDicc = some objetivo →
      ∃ k, obtenerProximoDiaSemana nombreDia ahora true = some (sumarDias ahora k) ∧
        k = (if (7 + objetivo - numeroDiaSemana ahora) % 7 = 0 then 7
             else (7 + objetivo - numeroDiaSemana ahora) % 7 + 7) ∧
        7 ≤ k ∧ k ≤ 13 ∧
        numeroDiaSemana (sumarDias ahora k) = objetivo ∧
        fechaMenor ahora (sumarDias ahora k) = true ∧
        (numeroDiaSemana ahora = objetivo → k = 7)) ∧
    (∀ (textoMin : String) (ahora : Fecha) (dparse : String → Option Fecha)
        (dia : String) (f : Fecha),
      resolverExplicita textoMin ahora = none →
      contieneAlguna textoMin ["próximo", "proximo", "siguiente"] = true →
      listaDias.find? (fun d => esSubcadena d.data textoMin.data) = some dia →
      obtenerProximoDiaSemana dia ahora true = some f →
      resolverPatrones textoMin ahora dparse = f) := by
  constructor
  swap
  · intro textoMin ahora dparse dia f hexp hkw hfind hobt
    unfold resolverPatrones
    rw [hexp]
    dsimp only
    rw [if_pos hkw]
    unfold primerDiaEnTexto
    rw [hfind]
    dsimp only
    rw [hobt]
  intro nombreDia ahora objetivo hv hbc
  have hobj : objetivo ≤ 6 := by
    have hmem := buscarClave_mem nombreDia diasSemanaDicc objetivo hbc
    have : ∀ p ∈ diasSemanaDicc, p.2 ≤ 6 := by decide
    exact this (nombreDia, objetivo) hmem
  have hwd : numeroDiaSemana ahora < 7 := by
    unfold numeroDiaSemana
    exact Nat.mod_lt _ (by norm_num)
  have hmod : (7 + objetivo - numeroDiaSemana ahora) % 7 < 7 :=
    Nat.mod_lt _ (by norm_num)
  refine ⟨(if (7 + objetivo - numeroDiaSemana ahora) % 7 = 0 then 7
           else (7 + objetivo - numeroDiaSemana ahora) % 7 + 7), ?_, rfl, ?_, ?_, ?_, ?_, ?_⟩
  · unfold obtenerProximoDiaSemana
    rw [hbc]
    simp only [if_true]
  · split <;> omega
  · split <;> omega
  · rw [numeroDiaSemana_sumarDias ahora hv]
    unfold numeroDiaSemana
    split <;> omega
  · exact fechaMenor_sumarDias_true ahora hv _ (by split <;> omega)
  · intro heq
    rw [heq]
    simp

/-- C7, witness: "próximo lunes" when now is Monday March 3, 2025 — the
in-week offset is 0 and the result is exactly 7 days out. -/
theorem c7_proximo_dia_semana_testigo :
    ∃ k, obtenerProximoDiaSemana "lunes" ⟨2025, 3, 3⟩ true =
        some (sumarDias ⟨2025, 3, 3⟩ k) ∧
      k = (if (7 + 0 - numeroDiaSemana ⟨2025, 3, 3⟩) % 7 = 0 then 7
           else (7 + 0 - numeroDiaSemana ⟨2025, 3, 3⟩) % 7 + 7) ∧
      7 ≤ k ∧ k ≤ 13 ∧
      numeroDiaSemana (sumarDias ⟨2025, 3, 3⟩ k) = 0 ∧
      fechaMenor ⟨2025, 3, 3⟩ (sumarDias ⟨2025, 3, 3⟩ k) = true ∧
      (numeroDiaSemana ⟨2025, 3, 3⟩ = 0 → k = 7) :=
  c7_proximo_dia_semana.1 "lunes" ⟨2025, 3, 3⟩ 0 (by decide) (by decide)

/-! ## Whitespace-only input lemmas (for C9) -/

theorem esEspacioPy_car (c : Char) (h : esEspacioPy c = true) :
    c = ' ' ∨ c = '\t' ∨ c = '\n' ∨ c = '\r' ∨ c = Char.ofNat 11 ∨ c = Char.ofNat 12 := by
  simp only [esEspacioPy, Bool.or_eq_true, beq_iff_eq] at h
  tauto

theorem espacio_no_puntuacion (c : Char) (h : esEspacioPy c = true) :
    puntuacionPy.contains c = false := by
  rcases esEspacioPy_car c h with rfl | rfl | rfl | rfl | rfl | rfl <;> decide

theorem espacio_minuscula (c : Char) (h : esEspacioPy c = true) :
    Char.toLower c = c := by
  rcases esEspacioPy_car c h with rfl | rfl | rfl | rfl | rfl | rfl <;> decide

theorem espacio_no_digito (c : Char) (h : esEspacioPy c = true) : c.isDigit = false := by
  rcases esEspacioPy_car c h with rfl | rfl | rfl | rfl | rfl | rfl <;> decide

theorem colapsar_espacios_solo (cs : List Char) (h : ∀ c ∈ cs, esEspacioPy c = true) :
    colapsarEspacios cs true = [] ∧
    colapsarEspacios cs false = if cs.isEmpty then [] else [' '] := by
  induction cs with
  | nil => exact ⟨rfl, rfl⟩
  | cons c resto ih =>
    have hc : esEspacioPy c = true := h c (List.mem_cons_self c resto)
    have ihr := ih (fun x hx => h x (List.mem_cons_of_mem c hx))
    constructor
    · unfold colapsarEspacios
      rw [hc]
      simp only [if_true]
      exact ihr.1
    · unfold colapsarEspacios
      rw [hc]
      simp only [if_true, List.isEmpty_cons, if_false]
      rw [ihr.1]

theorem normalizar_espacios (texto : String) (h : ∀ c ∈ texto.data, esEspacioPy c = true) :
    normalizarTexto texto = "" := by
  unfold normalizarTexto
  have hfil : texto.data.filter (fun c => !(puntuacionPy.contains c)) = texto.data := by
    apply List.filter_eq_self.mpr
    intro c hc
    rw [espacio_no_puntuacion c (h c hc)]
    rfl
  rw [hfil]
  dsimp only
  have hcol := (colapsar_espacios_solo texto.data h).2
  rw [hcol]
  by_cases he : texto.data.isEmpty
  · rw [if_pos he]
    rfl
  · rw [if_neg he]
    rfl

theorem tokenizar_espacios (texto : String) (h : ∀ c ∈ texto.data, esEspacioPy c = true) :
    tokenizar texto = [] := by
  unfold tokenizar
  rw [normalizar_espacios texto h]
  rfl

theorem minusculas_espacios (texto : String) (h : ∀ c ∈ texto.data, esEspacioPy c = true) :
    ∀ c ∈ (minusculasPy texto).data, esEspacioPy c = true := by
  intro c hc
  unfold minusculasPy at hc
  simp only [List.mem_map] at hc
  obtain ⟨c2, hc2, hmap⟩ := hc
  have := espacio_minuscula c2 (h c2 hc2)
  rw [← hmap, this]
  exact h c2 hc2

theorem buscarExplicitaAux_espacios (cs : List Char) (h : ∀ c ∈ cs, esEspacioPy c = true) :
    buscarExplicitaAux cs = none := by
  induction cs with
  | nil => rfl
  | cons c resto ih =>
    have hc := h c (List.mem_cons_self c resto)
    have hpat : patronEn (c :: resto) = none := by
      simp only [patronEn]
      rw [espacio_no_digito c hc]
      simp
    unfold buscarExplicitaAux
    rw [hpat]
    exact ih (fun x hx => h x (List.mem_cons_of_mem c hx))

theorem empiezaCon_subconjunto (pat cs : List Char) (h : empiezaCon pat cs = true) :
    ∀ x ∈ pat, x ∈ cs := by
  induction pat generalizing cs with
  | nil => intro x hx; cases hx
  | cons p resto ih =>
    cases cs with
    | nil => cases h
    | cons c rcs =>
      unfold empiezaCon at h
      rw [Bool.and_eq_true] at h
      intro x hx
      rcases List.mem_cons.mp hx with h1 | h1
      · have hpc : p = c := by simpa using h.1
        rw [h1, hpc]
        exact List.mem_cons_self c rcs
      · exact List.mem_cons_of_mem c (ih rcs h.2 x h1)

theorem esSubcadena_subconjunto (pat : List Char) :
    ∀ (cs : List Char), esSubcadena pat cs = true → ∀ x ∈ pat, x ∈ cs := by
  intro cs
  induction cs with
  | nil =>
    intro h x hx
    unfold esSubcadena at h
    rw [List.isEmpty_iff] at h
    rw [h] at hx
    cases hx
  | cons c resto ih =>
    intro h x hx
    unfold esSubcadena at h
    rw [Bool.or_eq_true] at h
    rcases h with h | h
    · exact empiezaCon_subconjunto pat (c :: resto) h x hx
    · exact List.mem_cons_of_mem c (ih h x hx)

theorem esSubcadena_espacios (pat : List Char) (x : Char) (hx : x ∈ pat)
    (hxe : esEspacioPy x = false) (cs : List Char)
    (h : ∀ c ∈ cs, esEspacioPy c = true) : esSubcadena pat cs = false := by
  cases hs : esSubcadena pat cs
  · rfl
  · have := esSubcadena_subconjunto pat cs hs x hx
    rw [h x this] at hxe
    cases hxe

/-! ## C9 -/

/-- C9: on empty or whitespace-only input, tokenisation is empty, the subject
classifier yields the empty string, the type classifier its default "Deber",
the priority resolver "Media", and — when the free-text parser finds nothing
in the text, as it does on empty input — the date falls through to the
last-resort default of the reference instant plus one day; the interpreter
returns normally.  The year bound keeps the +1 day inside `datetime`'s
range. -/
theorem c9_entrada_vacia :
    ∀ (texto : String) (ahora : Fecha) (dparse : String → Option Fecha)
      (respuestas : List Resp),
      (∀ c ∈ texto.data, esEspacioPy c = true) →
      validFecha ahora → ahora.year ≤ 9998 →
      dparse (minusculasPy texto) = none →
      tokenizar texto = [] ∧
      procesarLogicaNegocio texto ahora dparse respuestas =
        some ⟨capitalizarPy texto, formatearFecha (sumarDias ahora 1),
              "Deber", "Media", ""⟩ := by
  intro texto ahora dparse respuestas hesp hv _hy hdp
  have htok := tokenizar_espacios texto hesp
  refine ⟨htok, ?_⟩
  have hmin := minusculas_espacios texto hesp
  have hexp : resolverExplicita (minusculasPy texto) ahora = none := by
    unfold resolverExplicita buscarExplicita
    rw [buscarExplicitaAux_espacios (minusculasPy texto).data hmin]
    rfl
  have hkw1 : contieneAlguna (minusculasPy texto) ["próximo", "proximo", "siguiente"] = false := by
    unfold contieneAlguna
    rw [Bool.eq_false_iff]
    intro hex
    rw [List.any_eq_true] at hex
    obtain ⟨kw, hkw, hsub⟩ := hex
    have : esSubcadena kw.data (minusculasPy texto).data = false := by
      fin_cases hkw
      · exact esSubcadena_espacios _ 'p' (by decide) (by decide) _ hmin
      · exact esSubcadena_espacios _ 'p' (by decide) (by decide) _ hmin
      · exact esSubcadena_espacios _ 's' (by decide) (by decide) _ hmin
    rw [this] at hsub
    cases hsub
  have hkw2 : contieneAlguna (minusculasPy texto) ["este", "este semana"] = false := by
    unfold contieneAlguna
    rw [Bool.eq_false_iff]
    intro hex
    rw [List.any_eq_true] at hex
    obtain ⟨kw, hkw, hsub⟩ := hex
    have : esSubcadena kw.data (minusculasPy texto).data = false := by
      fin_cases hkw
      · exact esSubcadena_espacios _ 'e' (by decide) (by decide) _ hmin
      · exact esSubcadena_espacios _ 'e' (by decide) (by decide) _ hmin
    rw [this] at hsub
    cases hsub
  have hpat : resolverPatrones (minusculasPy texto) ahora dparse = sumarDias ahora 1 := by
    unfold resolverPatrones
    rw [hexp, hkw1, hkw2, hdp]
    rfl
  have hres : resolverFecha texto ahora dparse respuestas = some (sumarDias ahora 1) := by
    unfold resolverFecha
    dsimp only
    rw [hpat, fechaMenor_sumarDias_false ahora hv 1]
    rfl
  unfold procesarLogicaNegocio
  rw [hres, htok]
  rfl

/-! ## Validity of every date-strategy outcome (for C1) -/

theorem resolverExplicita_valida (textoMin : String) (ahora : Fecha) (f : Fecha)
    (h : resolverExplicita textoMin ahora = some f) :
    validFecha f ∧ ahora.year ≤ f.year ∧ f.year ≤ ahora.year + 1 := by
  unfold resolverExplicita at h
  cases hbe : buscarExplicita textoMin.data with
  | none => rw [hbe] at h; cases h
  | some p =>
    rw [hbe] at h
    obtain ⟨dia, mesStr⟩ := p
    dsimp only at h
    cases hbc : buscarClave mesStr mesesEs with
    | none => rw [hbc] at h; cases h
    | some mes =>
      rw [hbc] at h
      dsimp only at h
      have hs := safeDate_spec _ _ _ _ h
      refine ⟨hs.2.2.2.2.2.2.2, ?_, ?_⟩
      · rw [hs.1]
        split <;> omega
      · rw [hs.1]
        split <;> omega

theorem obtener_forma (nombreDia : String) (ahora : Fecha) (prox : Bool) (f : Fecha)
    (h : obtenerProximoDiaSemana nombreDia ahora prox = some f) :
    ∃ k, k ≤ 13 ∧ f = sumarDias ahora k := by
  unfold obtenerProximoDiaSemana at h
  cases hbc : buscarClave nombreDia diasSemanaDicc with
  | none => rw [hbc] at h; cases h
  | some objetivo =>
    rw [hbc] at h
    dsimp only at h
    injection h with h
    have hmod : (7 + objetivo - numeroDiaSemana ahora) % 7 < 7 :=
      Nat.mod_lt _ (by norm_num)
    refine ⟨_, ?_, h.symm⟩
    split
    · split <;> omega
    · omega

theorem primerDiaEnTexto_forma (textoMin : String) (ahora : Fecha) (prox : Bool) (f : Fecha)
    (h : primerDiaEnTexto textoMin ahora prox = some f) :
    ∃ k, k ≤ 13 ∧ f = sumarDias ahora k := by
  unfold primerDiaEnTexto at h
  cases hf : listaDias.find? (fun dia => esSubcadena dia.data textoMin.data) with
  | none => rw [hf] at h; cases h
  | some dia =>
    rw [hf] at h
    exact obtener_forma dia ahora prox f h

theorem sumarDias_valida_cota (ahora : Fecha) (k : ℕ) (hv : validFecha ahora)
    (h1 : 1000 ≤ ahora.year) (h2 : ahora.year ≤ 9985) (hk : k ≤ 13) :
    validFecha (sumarDias ahora k) ∧ 1000 ≤ (sumarDias ahora k).year ∧
      (sumarDias ahora k).year ≤ 9999 := by
  have hord := sumarDias_ordinal ahora hv k
  have hy := sumarDias_year ahora k
  exact ⟨hord.2, by omega, by omega⟩

/-- Whatever strategy resolves the date, the outcome before escalation is a
valid date with year in `datetime` range (given a sane reference year and a
well-behaved fallback parser). -/
theorem resolverPatrones_valida (textoMin : String) (ahora : Fecha)
    (dparse : String → Option Fecha)
    (hv : validFecha ahora) (h1 : 1000 ≤ ahora.year) (h2 : ahora.year ≤ 9985)
    (hdp : ∀ s f, dparse s = some f → validFecha f ∧ 1000 ≤ f.year ∧ f.year ≤ 9999) :
    validFecha (resolverPatrones textoMin ahora dparse) ∧
    1000 ≤ (resolverPatrones textoMin ahora dparse).year ∧
    (resolverPatrones textoMin ahora dparse).year ≤ 9999 := by
  unfold resolverPatrones
  cases he : resolverExplicita textoMin ahora with
  | some f =>
    dsimp only
    have := resolverExplicita_valida textoMin ahora f he
    exact ⟨this.1, by omega, by omega⟩
  | none =>
    dsimp only
    cases hw1 : (if contieneAlguna textoMin ["próximo", "proximo", "siguiente"]
        then primerDiaEnTexto textoMin ahora true else none) with
    | some f =>
      dsimp only
      have hf : primerDiaEnTexto textoMin ahora true = some f := by
        by_cases hc : contieneAlguna textoMin ["próximo", "proximo", "siguiente"] = true
        · rwa [if_pos hc] at hw1
        · rw [if_neg hc] at hw1; cases hw1
      obtain ⟨k, hk, rfl⟩ := primerDiaEnTexto_forma textoMin ahora true f hf
      exact sumarDias_valida_cota ahora k hv h1 h2 hk
    | none =>
      dsimp only
      cases hw2 : (if contieneAlguna textoMin ["este", "este semana"]
          then primerDiaEnTexto textoMin ahora false else none) with
      | some f =>
        dsimp only
        have hf : primerDiaEnTexto textoMin ahora false = some f := by
          by_cases hc : contieneAlguna textoMin ["este", "este semana"] = true
          · rwa [if_pos hc] at hw2
          · rw [if_neg hc] at hw2; cases hw2
        obtain ⟨k, hk, rfl⟩ := primerDiaEnTexto_forma textoMin ahora false f hf
        exact sumarDias_valida_cota ahora k hv h1 h2 hk
      | none =>
        dsimp only
        cases hdpc : dparse textoMin with
        | some f =>
          dsimp only
          exact hdp textoMin f hdpc
        | none =>
          dsimp only
          exact sumarDias_valida_cota ahora 1 hv h1 h2 (by omega)

/-! ## C1 -/

/-- C1: (first clause) for every input string, whenever the interpreter
returns, the record's 'fecha' field is the YYYY-MM-DD rendering of a valid
calendar date not strictly before the reference date — assuming a sane
reference year, a fallback parser returning real dates, and the
disambiguation step honouring its contract (it yields a valid, non-past
date).  (Second clause) inside the escalation, the "this month" candidate is
accepted only when it is not before the reference date: a past candidate
re-prompts, a non-past one is returned.  (Third clause) the "next month"
candidate rolls the year over at December→January. -/
theorem c1_fecha_valida_no_pasada :
    (∀ (texto : String) (ahora : Fecha) (dparse : String → Option Fecha)
        (respuestas : List Resp) (r : Tarea),
      validFecha ahora → 1000 ≤ ahora.year → ahora.year ≤ 9985 →
      (∀ s f, dparse s = some f → validFecha f ∧ 1000 ≤ f.year ∧ f.year ≤ 9999) →
      (∀ f d, pedirConfirmacionFecha texto f ahora respuestas = some d →
        fechaMenor d ahora = false ∧ validFecha d ∧ 1000 ≤ d.year ∧ d.year ≤ 9999) →
      procesarLogicaNegocio texto ahora dparse respuestas = some r →
      ∃ d, validFecha d ∧ 1000 ≤ d.year ∧ d.year ≤ 9999 ∧
        fechaMenor d ahora = false ∧ r.fecha = formatearFecha d) ∧
    (∀ (texto : String) (f ahora : Fecha) (respuestas : List Resp) (fe fp : Fecha),
      candidatoEsteMes ahora f.day = some fe →
      candidatoProximoMes ahora f.day = some fp →
      (fechaMenor fe ahora = true →
        pedirConfirmacionFecha texto f ahora (Resp.este :: respuestas) =
          pedirConfirmacionFecha texto f ahora respuestas) ∧
      (fechaMenor fe ahora = false →
        pedirConfirmacionFecha texto f ahora (Resp.este :: respuestas) = some fe)) ∧
    (∀ (ahora : Fecha) (dia : ℕ) (d : Fecha),
      ahora.month = 12 →
      candidatoProximoMes ahora dia = some d →
      d.year = ahora.year + 1 ∧ d.month = 1) := by
  refine ⟨?_, ?_, ?_⟩
  · intro texto ahora dparse respuestas r hv h1000 h9985 hdp hconf hp
    obtain ⟨-, -, -, -, d, hres, hfecha⟩ := procesar_campos _ _ _ _ _ hp
    unfold resolverFecha at hres
    dsimp only at hres
    by_cases hlt :
        fechaMenor (resolverPatrones (minusculasPy texto) ahora dparse) ahora = true
    · rw [if_pos hlt] at hres
      obtain ⟨hnp, hvd, hy1, hy2⟩ := hconf _ _ hres
      exact ⟨d, hvd, hy1, hy2, hnp, hfecha⟩
    · rw [if_neg hlt] at hres
      injection hres with hres
      have hval := resolverPatrones_valida (minusculasPy texto) ahora dparse hv h1000
        h9985 hdp
      refine ⟨d, ?_, ?_, ?_, ?_, hfecha⟩
      · rw [← hres]; exact hval.1
      · rw [← hres]; exact hval.2.1
      · rw [← hres]; exact hval.2.2
      · rw [← hres]
        exact Bool.not_eq_true _ |>.mp hlt
  · intro texto f ahora respuestas fe fp hfe hfp
    constructor
    · intro hlt
      unfold pedirConfirmacionFecha
      rw [hfp, hfe]
      simp only [bucleConfirmacion]
      rw [hlt]
      simp only [if_true]
    · intro hge
      unfold pedirConfirmacionFecha
      rw [hfp, hfe]
      simp only [bucleConfirmacion]
      rw [hge]
      simp only [Bool.false_eq_true, if_false]
  · intro ahora dia d h12 hc
    unfold candidatoProximoMes at hc
    rw [h12] at hc
    rw [if_pos (by norm_num)] at hc
    have hs := safeDate_spec _ _ _ _ hc
    exact ⟨hs.1, hs.2.1⟩

/-- C1, witness: the first clause applied to the empty input at a concrete
reference instant, with a fallback parser that finds nothing and an empty
reply channel (on which the escalation never returns, so its contract holds
vacuously). -/
theorem c1_fecha_valida_no_pasada_testigo :
    ∃ d, validFecha d ∧ 1000 ≤ d.year ∧ d.year ≤ 9999 ∧
      fechaMenor d ⟨2025, 3, 1⟩ = false ∧ ("2025-03-02" : String) = formatearFecha d := by
  have h := c1_fecha_valida_no_pasada.1 "" ⟨2025, 3, 1⟩ (fun _ => none) []
    ⟨"", "2025-03-02", "Deber", "Media", ""⟩ (by decide) (by decide) (by decide)
    (by intro s f hf; cases hf)
    (by
      intro f d hped
      unfold pedirConfirmacionFecha at hped
      cases hc : candidatoProximoMes ⟨2025, 3, 1⟩ f.day with
      | none => rw [hc] at hped; cases hped
      | some fp => rw [hc] at hped; cases hped)
    (by decide)
  exact h

/-- C9, witness: the theorem applied to the empty string at a concrete
reference instant with a fallback parser that finds nothing. -/
theorem c9_entrada_vacia_testigo :
    tokenizar "" = [] ∧
    procesarLogicaNegocio "" ⟨2025, 3, 1⟩ (fun _ => none) [] =
      some ⟨capitalizarPy "", formatearFecha (sumarDias ⟨2025, 3, 1⟩ 1),
            "Deber", "Media", ""⟩ :=
  c9_entrada_vacia "" ⟨2025, 3, 1⟩ (fun _ => none) [] (by decide) (by decide)
    (by decide) rfl
